import Mathlib

/-!
# Verification of `pp/core/spectral.py` (`SpectralAnalyzer._compute_psd`)

Shallow embedding of the spectral-decomposition pipeline of
`SpectralAnalyzer._compute_psd`.  Floating-point numbers are modelled as real
numbers (`ℝ`), complex NumPy scalars as `ℂ`.  The external numerical routine
`np.roots` is modelled by a parameter `polesRaw : List ℂ` standing for the
multiset of roots it returns; theorems that depend on the relation between the
roots and the AR coefficients carry an explicit hypothesis (`rootsProd`)
stating that the monic polynomial with those roots is the characteristic
polynomial built from the coefficients.

Two places where Python/NumPy semantics need care are modelled explicitly and
documented at the definitions `modScaleOf` and `resDenom`:
the `min(0.99 / max(...), 1)` expression, and the object-identity test
`val is not p` in the residue computation.
-/

namespace Spectral

/-- `np.mean(wn)`: arithmetic mean of the inter-event intervals. -/
noncomputable def mean (wn : List ℝ) : ℝ := wn.sum / wn.length

/-- `var = 1e6 * (np.mean(wn) ** 3 / k)`: sample variance rescaled from s² to
ms² by the fixed constant `1e6` (lines 57–58 of the source). -/
noncomputable def varOf (wn : List ℝ) (k : ℝ) : ℝ := 1e6 * ((mean wn) ^ 3 / k)

/-- `fsamp = 1 / np.mean(wn)`: sampling rate as reciprocal mean interval. -/
noncomputable def fsampOf (wn : List ℝ) : ℝ := 1 / mean wn

/-- `thetap = theta[1:] if hasTheta0 else theta[:]`: intercept removal. -/
def thetapOf (hasTheta0 : Bool) (theta : List ℝ) : List ℝ :=
  if hasTheta0 then theta.tail else theta

/-- The sort key comparison used in
`sorted(poles_values, key=lambda x: abs(np.angle(x)))`:
compare poles by the absolute value of their principal argument. -/
noncomputable def angleLe (a b : ℂ) : Prop := |a.arg| ≤ |b.arg|

noncomputable instance : DecidableRel angleLe := fun a b =>
  Real.decidableLE |a.arg| |b.arg|

/-- `sorted(poles_values, key=lambda x: abs(np.angle(x)))`.  Python's `sorted`
is a stable sort ascending on the key; insertion sort on the (total) key
comparison is also stable and produces the same list. -/
noncomputable def sortPoles (l : List ℂ) : List ℂ := l.insertionSort angleLe

/-- `max(np.abs(poles_values))` over the (nonempty) pole list.  The fold base
`0` is below every absolute value, so on a nonempty list this is the true
maximum; `computePsd` raises the `ValueError` of Python's `max` on the empty
list before this value is ever used. -/
noncomputable def maxAbsOf (l : List ℂ) : ℝ := (l.map Complex.abs).foldr max 0

/-- `mod_scale = min(0.99 / max(np.abs(poles_values)), 1)` (line 68).
In IEEE arithmetic `0.99 / 0.0 = +inf` and `min(inf, 1) = 1`, so the
`maxAbsOf l = 0` case yields `1`; for `maxAbsOf l ≥ 0.99` the quotient is
`≤ 1` and `min` returns it.  The branch condition `maxAbsOf l < 0.99` is
exactly the case in which Python's `min` returns its second argument, the
**int** `1` (for `maxAbsOf l ≥ 0.99` it returns the first argument, a NumPy
float) — see `resDenom` for why that type difference is semantically
load-bearing. -/
noncomputable def modScaleOf (l : List ℂ) : ℝ :=
  if maxAbsOf l < 0.99 then 1 else 0.99 / maxAbsOf l

/-- Records whether `mod_scale` was the Python int `1`: in that case
`poles_values = mod_scale * poles_values` (line 69) is list repetition and
`poles_values` stays a Python list of (distinct) scalar objects; otherwise the
multiplication by a NumPy float converts it to an `np.ndarray`. -/
noncomputable def stableFlag (l : List ℂ) : Bool := decide (maxAbsOf l < 0.99)

/-- `poles_values = mod_scale * poles_values` (line 69), value-wise. -/
noncomputable def scaledPoles (l : List ℂ) : List ℂ :=
  l.map (fun p => ((modScaleOf l : ℝ) : ℂ) * p)

/-- `np.cumprod`: running products, `cumprodAux acc [x₁, x₂, …] =
[acc·x₁, acc·x₁·x₂, …]`. -/
def cumprodAux (acc : ℝ) : List ℝ → List ℝ
  | [] => []
  | x :: xs => (acc * x) :: cumprodAux (acc * x) xs

/-- `np.cumprod(l)`. -/
def cumprod (l : List ℝ) : List ℝ := cumprodAux 1 l

/-- `thetap = thetap * np.cumprod(np.ones(thetap.shape) * mod_scale)`
(line 70): coefficient `i` (0-based) is multiplied by `mod_scale^(i+1)`. -/
noncomputable def scaledTheta (polesSorted : List ℂ) (thetap : List ℝ) : List ℝ :=
  List.zipWith (fun t c => t * c) thetap
    (cumprod (List.replicate thetap.length (modScaleOf polesSorted)))

/-- `np.linspace a b n` (endpoint inclusive, NumPy's default):
entry `i` is `a + (b - a) * i / (n - 1)`. -/
noncomputable def linspace (a b : ℝ) (n : ℕ) : List ℝ :=
  (List.range n).map (fun i : ℕ => a + (b - a) * (i : ℝ) / ((n : ℝ) - 1))

/-- `fs = np.linspace(-0.5, 0.5, 2048)` (line 72). -/
noncomputable def fsGrid : List ℝ := linspace (-0.5) 0.5 2048

/-- `z = np.exp(2j * np.pi * f)` for a single normalized frequency `f`. -/
noncomputable def zOf (f : ℝ) : ℂ := Complex.exp (((2 * Real.pi * f : ℝ) : ℂ) * Complex.I)

/-- `z = np.exp(2j * np.pi * fs)` (line 75). -/
noncomputable def zGrid : List ℂ := fsGrid.map zOf

/-- `np.polyval(coeffs, w)`: Horner evaluation, highest coefficient first. -/
def polyval (coeffs : List ℂ) (w : ℂ) : ℂ :=
  coeffs.foldl (fun acc c => acc * w + c) 0

/-- `powers = (var / fsamp) / abs(np.polyval(np.r_[1, -thetap], np.conj(z))) ** 2`
(line 79), with `thetap` the stabilized coefficients. -/
noncomputable def powersOf (thetapScaled : List ℝ) (var fsamp : ℝ) : List ℝ :=
  zGrid.map (fun zz =>
    (var / fsamp) /
      (Complex.abs (polyval ((1 : ℂ) :: thetapScaled.map (fun t : ℝ => -(t : ℂ)))
        ((starRingEnd ℂ) zz))) ^ 2)

/-- `frequencies = fs * fsamp` (line 80). -/
noncomputable def freqsOf (fsamp : ℝ) : List ℝ := fsGrid.map (fun f => f * fsamp)

/-- Denominator of the residue of pole `i` (lines 81–89):
`p * np.prod(p - [val for val in poles_values if val is not p]) *
np.prod(1 / p - np.conj(poles_values))`.

The inner filter compares **object identity** (`is not`), not values:
* `stable = true` (`mod_scale` was the Python int `1`, `poles_values` still a
  Python list of pairwise-distinct scalar objects): the filter removes exactly
  the `i`-th element — `List.eraseIdx i`, even when another element has the
  same numeric value;
* `stable = false` (`poles_values` became an `np.ndarray`; iterating it
  creates a fresh scalar object at every access): `val is not p` is true for
  every element, nothing is removed, and the product contains the factor
  `p - p = 0`. -/
noncomputable def resDenom (stable : Bool) (poles : List ℂ) (i : ℕ) : ℂ :=
  (poles.getD i 0) *
    ((if stable then poles.eraseIdx i else poles).map
      (fun v => poles.getD i 0 - v)).prod *
    ((poles.map (fun v => 1 / poles.getD i 0 - (starRingEnd ℂ) v)).prod)

/-- `poles_residuals` (lines 81–89).  NumPy's complex division by an exactly
zero denominator emits a warning and produces non-finite (`inf`/`NaN`)
components; in this exact-arithmetic model that case is the one where
`resDenom … = 0` (and `1 / 0` is `ℂ`'s junk value `0`) — theorems about the
division-by-zero path therefore speak about `resDenom … = 0`. -/
noncomputable def residuesOf (stable : Bool) (poles : List ℂ) : List ℂ :=
  (List.range poles.length).map (fun i => 1 / resDenom stable poles i)

/-- Per-pole spectral contribution arrays (lines 94–99):
`pp = res_i * p_i / (z - p_i)`,
`refpp = -conj(res_i) * (1/conj(p_i)) / (z - 1/conj(p_i))`,
`comps_i = var / fsamp * (pp + refpp)` over the whole `z` grid. -/
noncomputable def compsOf (var fsamp : ℝ) (stable : Bool) (poles : List ℂ) :
    List (List ℂ) :=
  (List.range poles.length).map (fun i =>
    zGrid.map (fun zz =>
      ((var / fsamp : ℝ) : ℂ) *
        ((residuesOf stable poles).getD i 0 * poles.getD i 0 /
            (zz - poles.getD i 0) +
          (-((starRingEnd ℂ) ((residuesOf stable poles).getD i 0)) *
              (1 / (starRingEnd ℂ) (poles.getD i 0)) /
            (zz - 1 / (starRingEnd ℂ) (poles.getD i 0))))))

/-- `np.isclose(a, b)` for complex scalars with NumPy's default tolerances:
`|a - b| ≤ atol + rtol * |b|`, `atol = 1e-8`, `rtol = 1e-5`. -/
noncomputable def isclose (a b : ℂ) : Prop :=
  Complex.abs (a - b) ≤ 1e-8 + 1e-5 * Complex.abs b

noncomputable instance (a b : ℂ) : Decidable (isclose a b) := by
  unfold isclose; infer_instance

/-- `poles_comps_agg[-1] += poles_comps[i]`: elementwise sum of two
contribution arrays. -/
def addComps (a b : List ℂ) : List ℂ := List.zipWith (· + ·) a b

/-- The aggregation loop (lines 101–109): scan poles from index 1; if the
current pole is `np.isclose` to the conjugate of the previous one, add its
contribution array into the last group, else open a new group. -/
noncomputable def aggGo (prev : ℂ) (cur : List ℂ) :
    List ℂ → List (List ℂ) → List (List ℂ)
  | [], _ => [cur]
  | _ :: _, [] => [cur]
  | p :: ps, c :: cs =>
    if isclose p ((starRingEnd ℂ) prev) then aggGo p (addComps cur c) ps cs
    else cur :: aggGo p c ps cs

/-- `poles_comps_agg` (lines 101–109): one contribution array per greedily
merged adjacent conjugate group.  The empty case is unreachable: the empty
pole list raises the `ValueError` in `computePsd` before this point. -/
noncomputable def aggregateComps (poles : List ℂ) (comps : List (List ℂ)) :
    List (List ℂ) :=
  match poles, comps with
  | p :: ps, c :: cs => aggGo p c ps cs
  | _, _ => []

/-- The `Pole` dataclass of the source.  The `residual` field is annotated
`float` in the source but stores the complex residue NumPy computes; it is
modelled as `ℂ`. -/
structure Pole where
  pos : ℂ
  frequency : ℝ
  power : ℝ
  residual : ℂ

/-- The `SpectralAnalysis` dataclass of the source (arrays as lists). -/
structure SpectralAnalysis where
  frequencies : List ℝ
  powers : List ℝ
  poles : List Pole
  comps : List (List ℂ)

/-- Failure modes.  `valueError` is the `ValueError` Python's `max` raises on
an empty sequence (the only exception `_compute_psd` can actually raise).
Modelled from the spec: the remaining constructors are the error taxonomy of
spec §7 (`DegenerateModelError`, `InvalidSampleCountError`,
`SingularPoleError`); no such classes exist anywhere in the source — they are
included only so that claims about them can be stated and compared with what
the code does. -/
inductive PyErr where
  | valueError : PyErr
  | degenerateModelError : PyErr
  | invalidSampleCountError : PyErr
  | singularPoleError : PyErr
deriving DecidableEq

/-- The pole objects of the returned analysis (lines 91–92 and 111–116):
`Pole(pos, angle(pos)/(2π)*fsamp, var*Re(res), res)` for each scaled pole. -/
noncomputable def polesListOf (var fsamp : ℝ) (stable : Bool) (poles : List ℂ) :
    List Pole :=
  (List.range poles.length).map (fun i =>
    { pos := poles.getD i 0
      frequency := (poles.getD i 0).arg / (2 * Real.pi) * fsamp
      power := var * ((residuesOf stable poles).getD i 0).re
      residual := (residuesOf stable poles).getD i 0 })

/-- Assembly of the returned `SpectralAnalysis` from the sorted pole list
(lines 55–123 after the `ValueError` guard). -/
noncomputable def analysisOf (thetap wn : List ℝ) (k : ℝ) (polesSorted : List ℂ)
    (aggregate : Bool) : SpectralAnalysis :=
  { frequencies := freqsOf (fsampOf wn)
    powers := powersOf (scaledTheta polesSorted thetap) (varOf wn k) (fsampOf wn)
    poles := polesListOf (varOf wn k) (fsampOf wn) (stableFlag polesSorted)
      (scaledPoles polesSorted)
    comps :=
      cond aggregate
        (aggregateComps (scaledPoles polesSorted)
          (compsOf (varOf wn k) (fsampOf wn) (stableFlag polesSorted)
            (scaledPoles polesSorted)))
        (compsOf (varOf wn k) (fsampOf wn) (stableFlag polesSorted)
          (scaledPoles polesSorted)) }

/-- `SpectralAnalyzer.psd` / `_compute_psd` end to end.  `polesRaw` models the
return value of `np.roots(np.r_[1, -thetap])`.  When the pole list is empty
(degree-0 model), line 68 evaluates `max` of an empty sequence, which raises
`ValueError`; the pipeline returns no partial result. -/
noncomputable def computePsd (hasTheta0 : Bool) (theta wn : List ℝ) (k : ℝ)
    (polesRaw : List ℂ) (aggregate : Bool) : Except PyErr SpectralAnalysis :=
  match sortPoles polesRaw with
  | [] => Except.error PyErr.valueError
  | _ :: _ =>
    Except.ok (analysisOf (thetapOf hasTheta0 theta) wn k (sortPoles polesRaw)
      aggregate)

/-- The spec's spectral polynomial `A(w) = 1 - θ₁ w⁻¹ - … - θₚ w⁻ᵖ` (§4.4). -/
noncomputable def aSpec (thetap : List ℝ) (w : ℂ) : ℂ :=
  1 - ∑ j ∈ Finset.range thetap.length, ((thetap.getD j 0 : ℝ) : ℂ) * (w⁻¹) ^ (j + 1)

/-- Monic polynomial with the given roots: `∏ᵢ (X - rᵢ)`. -/
noncomputable def rootsProd (l : List ℂ) : Polynomial ℂ :=
  (l.map (fun r => Polynomial.X - Polynomial.C r)).prod

/-- The characteristic polynomial `np.r_[1, -thetap]` read as a polynomial:
`X^p - θ₁ X^(p-1) - … - θₚ` (line 60). -/
noncomputable def arPolyC (thetap : List ℝ) : Polynomial ℂ :=
  Polynomial.X ^ thetap.length -
    ∑ j ∈ Finset.range thetap.length,
      Polynomial.C ((thetap.getD j 0 : ℝ) : ℂ) * Polynomial.X ^ (thetap.length - 1 - j)

/-- A genuine complex-conjugate pair among the pole values: two distinct
positions that are conjugates of one another with nonzero imaginary part
(claim C4's "true complex-conjugate pair"). -/
def hasTrueConjPair (l : List ℂ) : Prop :=
  ∃ i j, i < l.length ∧ j < l.length ∧ i ≠ j ∧
    l.getD i 0 = (starRingEnd ℂ) (l.getD j 0) ∧ (l.getD i 0).im ≠ 0

/-- Number of indices `i ≥ 1` whose pole is `np.isclose` to the conjugate of
its predecessor — the number of merge steps the aggregation loop performs. -/
noncomputable def adjMerges : List ℂ → ℕ
  | [] => 0
  | [_] => 0
  | a :: b :: rest =>
    (if isclose b ((starRingEnd ℂ) a) then 1 else 0) + adjMerges (b :: rest)

/-! ## General helper lemmas -/

lemma getD_map {α β : Type*} (f : α → β) (l : List α) (i : ℕ) (h : i < l.length)
    (d : α) (d' : β) : (l.map f).getD i d' = f (l.getD i d) := by
  rw [List.getD_eq_getElem _ _ (by simpa using h), List.getD_eq_getElem _ _ h,
    List.getElem_map]

lemma sortPoles_perm (l : List ℂ) : (sortPoles l).Perm l :=
  List.perm_insertionSort _ _

lemma length_sortPoles (l : List ℂ) : (sortPoles l).length = l.length :=
  (sortPoles_perm l).length_eq

lemma sortPoles_ne_nil {l : List ℂ} (h : l ≠ []) : sortPoles l ≠ [] := by
  intro hs
  apply h
  have := length_sortPoles l
  rw [hs] at this
  exact List.length_eq_zero.mp this.symm

lemma computePsd_ok (hasTheta0 : Bool) (theta wn : List ℝ) (k : ℝ)
    (polesRaw : List ℂ) (aggregate : Bool) (h : polesRaw ≠ []) :
    computePsd hasTheta0 theta wn k polesRaw aggregate =
      Except.ok (analysisOf (thetapOf hasTheta0 theta) wn k (sortPoles polesRaw)
        aggregate) := by
  unfold computePsd
  split
  · next heq => exact absurd heq (sortPoles_ne_nil h)
  · rfl

lemma length_fsGrid : fsGrid.length = 2048 := by
  rw [fsGrid, linspace, List.length_map, List.length_range]

lemma length_zGrid : zGrid.length = 2048 := by
  rw [zGrid, List.length_map, length_fsGrid]

lemma fsGrid_getD (i : ℕ) (h : i < 2048) :
    fsGrid.getD i 0 = -0.5 + (i : ℝ) / 2047 := by
  have hl : i < (List.range 2048).length := by
    rw [List.length_range]; exact h
  rw [fsGrid, linspace, getD_map _ _ i hl 0,
    List.getD_eq_getElem _ _ hl, List.getElem_range]
  norm_num

lemma zGrid_getD (i : ℕ) (h : i < 2048) :
    zGrid.getD i 0 = zOf (fsGrid.getD i 0) := by
  rw [zGrid, getD_map zOf fsGrid i (by rw [length_fsGrid]; exact h) 0]

lemma powersOf_getD (thetapScaled : List ℝ) (var fsamp : ℝ) (i : ℕ)
    (h : i < 2048) :
    (powersOf thetapScaled var fsamp).getD i 0 =
      (var / fsamp) /
        (Complex.abs (polyval ((1 : ℂ) :: thetapScaled.map (fun t : ℝ => -(t : ℂ)))
          ((starRingEnd ℂ) (zGrid.getD i 0)))) ^ 2 := by
  rw [powersOf, getD_map _ _ i (by rw [length_zGrid]; exact h) 0]

/-! ## Horner evaluation versus the spec polynomial `A` -/

lemma polyval_foldl_shift (w : ℂ) (cs : List ℂ) (a : ℂ) :
    cs.foldl (fun acc c => acc * w + c) a =
      a * w ^ cs.length + cs.foldl (fun acc c => acc * w + c) 0 := by
  induction cs generalizing a with
  | nil => simp
  | cons b cs ih =>
    simp only [List.foldl_cons, List.length_cons]
    rw [ih (a * w + b), ih (0 * w + b)]
    ring

lemma polyval_cons (c : ℂ) (cs : List ℂ) (w : ℂ) :
    polyval (c :: cs) w = c * w ^ cs.length + polyval cs w := by
  simp only [polyval, List.foldl_cons]
  rw [polyval_foldl_shift]
  ring

lemma polyval_eq_sum (cs : List ℂ) (w : ℂ) :
    polyval cs w =
      ∑ j ∈ Finset.range cs.length, cs.getD j 0 * w ^ (cs.length - 1 - j) := by
  induction cs with
  | nil => simp [polyval]
  | cons c cs ih =>
    rw [polyval_cons, ih, List.length_cons, Finset.sum_range_succ']
    simp only [List.getD_cons_succ, List.getD_cons_zero, Nat.add_sub_cancel,
      Nat.sub_zero]
    rw [add_comm (c * w ^ cs.length)]
    congr 1
    apply Finset.sum_congr rfl
    intro j hj
    congr 2
    omega

lemma polyval_ar_eq (θ : List ℝ) (w : ℂ) (hw : w ≠ 0) :
    polyval ((1 : ℂ) :: θ.map (fun t : ℝ => -(t : ℂ))) w =
      w ^ θ.length * aSpec θ w := by
  rw [polyval_cons, polyval_eq_sum, aSpec]
  simp only [List.length_map, one_mul]
  rw [mul_sub, mul_one, Finset.mul_sum, sub_eq_add_neg, ← Finset.sum_neg_distrib]
  congr 1
  apply Finset.sum_congr rfl
  intro j hj
  have hjp : j < θ.length := Finset.mem_range.mp hj
  rw [getD_map _ _ j hjp 0]
  have hpow : w ^ θ.length * (w⁻¹) ^ (j + 1) = w ^ (θ.length - 1 - j) := by
    have hsplit : w ^ θ.length = w ^ (θ.length - 1 - j) * w ^ (j + 1) := by
      rw [← pow_add]
      congr 1
      omega
    rw [hsplit, mul_assoc, ← mul_pow, mul_inv_cancel₀ hw, one_pow, mul_one]
  rw [← hpow]
  ring

lemma abs_polyval_ar (θ : List ℝ) (w : ℂ) (hw : Complex.abs w = 1) :
    Complex.abs (polyval ((1 : ℂ) :: θ.map (fun t : ℝ => -(t : ℂ))) w) =
      Complex.abs (aSpec θ w) := by
  have hw0 : w ≠ 0 := by
    intro h0
    rw [h0] at hw
    simp at hw
  rw [polyval_ar_eq θ w hw0, map_mul, map_pow, hw, one_pow, one_mul]

lemma abs_conj_zOf (f : ℝ) : Complex.abs ((starRingEnd ℂ) (zOf f)) = 1 := by
  rw [Complex.abs_conj, zOf]
  exact Complex.abs_exp_ofReal_mul_I _

/-! ## Claim C1 -/

/-- Claim C1: for every valid input (non-empty `wn`, `k > 0`, at least one AR
coefficient after intercept removal), every entry of the power array returned
by `psd()` equals `(variance / sampling_rate) / |A(conj z)|²`, where
`variance = 1e6 * mean(wn)³ / k`, `sampling_rate = 1 / mean(wn)`, `A` is the
polynomial `1 - θ₁ w⁻¹ - … - θₚ w⁻ᵖ` built from the post-stabilization AR
coefficients, and `z = e^{i2πf}` for that entry's normalized grid frequency. -/
theorem C1_powers_match_spec (hasTheta0 : Bool) (theta wn : List ℝ) (k : ℝ)
    (polesRaw : List ℂ) (aggregate : Bool)
    (_hwn : wn ≠ []) (_hk : 0 < k) (_hθ : thetapOf hasTheta0 theta ≠ [])
    (hp : polesRaw ≠ []) (i : ℕ) (hi : i < 2048) :
    (computePsd hasTheta0 theta wn k polesRaw aggregate).map
        (fun r => r.powers.getD i 0) =
      Except.ok ((1e6 * (mean wn) ^ 3 / k / (1 / mean wn)) /
        (Complex.abs (aSpec
          (scaledTheta (sortPoles polesRaw) (thetapOf hasTheta0 theta))
          ((starRingEnd ℂ) (zOf (fsGrid.getD i 0))))) ^ 2) := by
  rw [computePsd_ok _ _ _ _ _ _ hp]
  simp only [Except.map, analysisOf]
  rw [powersOf_getD _ _ _ i hi, zGrid_getD i hi,
    abs_polyval_ar _ _ (abs_conj_zOf _)]
  congr 2
  rw [varOf, fsampOf]
  ring

/-- Witness for C1 at the concrete input `theta = [0.5]` (no intercept),
`wn = [1]`, `k = 1`, pole list `[0.5]`, grid index `0`. -/
theorem C1_powers_match_spec_witness :
    ([1] : List ℝ) ≠ [] ∧ (0 : ℝ) < 1 ∧ thetapOf false [0.5] ≠ [] ∧
      ([((0.5 : ℝ) : ℂ)] : List ℂ) ≠ [] ∧ (0 : ℕ) < 2048 ∧
      (computePsd false [0.5] [1] 1 [((0.5 : ℝ) : ℂ)] true).map
          (fun r => r.powers.getD 0 0) =
        Except.ok ((1e6 * (mean [1]) ^ 3 / 1 / (1 / mean [1])) /
          (Complex.abs (aSpec
            (scaledTheta (sortPoles [((0.5 : ℝ) : ℂ)]) (thetapOf false [0.5]))
            ((starRingEnd ℂ) (zOf (fsGrid.getD 0 0))))) ^ 2) :=
  ⟨by simp, by norm_num, by simp [thetapOf], by simp, by norm_num,
    C1_powers_match_spec false [0.5] [1] 1 [((0.5 : ℝ) : ℂ)] true
      (by simp) (by norm_num) (by simp [thetapOf]) (by simp) 0 (by norm_num)⟩

/-! ## Stabilization lemmas -/

lemma maxAbsOf_nil : maxAbsOf [] = 0 := rfl

lemma maxAbsOf_cons (x : ℂ) (xs : List ℂ) :
    maxAbsOf (x :: xs) = max (Complex.abs x) (maxAbsOf xs) := rfl

lemma maxAbsOf_nonneg (l : List ℂ) : 0 ≤ maxAbsOf l := by
  induction l with
  | nil => exact le_refl 0
  | cons x xs ih => exact le_max_of_le_right ih

lemma abs_le_maxAbsOf {l : List ℂ} {p : ℂ} (h : p ∈ l) :
    Complex.abs p ≤ maxAbsOf l := by
  induction l with
  | nil => exact absurd h (List.not_mem_nil p)
  | cons x xs ih =>
    rw [maxAbsOf_cons]
    rcases List.mem_cons.mp h with h1 | h2
    · rw [h1]; exact le_max_left _ _
    · exact le_trans (ih h2) (le_max_right _ _)

lemma maxAbsOf_le {l : List ℂ} {c : ℝ} (h0 : 0 ≤ c)
    (h : ∀ p ∈ l, Complex.abs p ≤ c) : maxAbsOf l ≤ c := by
  induction l with
  | nil => exact h0
  | cons x xs ih =>
    rw [maxAbsOf_cons]
    exact max_le (h x (List.mem_cons_self x xs))
      (ih fun p hp => h p (List.mem_cons_of_mem x hp))

lemma modScaleOf_nonneg (l : List ℂ) : 0 ≤ modScaleOf l := by
  rw [modScaleOf]
  split
  · exact zero_le_one
  · next hge =>
    have : (0 : ℝ) < maxAbsOf l := lt_of_lt_of_le (by norm_num) (not_lt.mp hge)
    positivity

/-- The branch form of `modScaleOf` agrees with the spec's
`min(0.99 / max|pole|, 1)` whenever the maximum is nonzero. -/
lemma modScaleOf_eq_min {l : List ℂ} (h : 0 < maxAbsOf l) :
    modScaleOf l = min (0.99 / maxAbsOf l) 1 := by
  rw [modScaleOf]
  split
  · next hlt =>
    rw [min_eq_right]
    rw [le_div_iff₀ h]
    linarith
  · next hge =>
    rw [min_eq_left]
    rw [div_le_one h]
    linarith [not_lt.mp hge]

lemma abs_scaled_le {l : List ℂ} {p : ℂ} (h : p ∈ l) :
    Complex.abs (((modScaleOf l : ℝ) : ℂ) * p) ≤ 0.99 := by
  rw [map_mul, Complex.abs_ofReal, abs_of_nonneg (modScaleOf_nonneg l)]
  rw [modScaleOf]
  split
  · next hlt =>
    rw [one_mul]
    exact le_trans (abs_le_maxAbsOf h) (le_of_lt hlt)
  · next hge =>
    have hpos : (0 : ℝ) < maxAbsOf l :=
      lt_of_lt_of_le (by norm_num) (not_lt.mp hge)
    calc 0.99 / maxAbsOf l * Complex.abs p
        ≤ 0.99 / maxAbsOf l * maxAbsOf l :=
          mul_le_mul_of_nonneg_left (abs_le_maxAbsOf h) (by positivity)
      _ = 0.99 := div_mul_cancel₀ _ (ne_of_gt hpos)

lemma length_cumprodAux (acc : ℝ) (l : List ℝ) :
    (cumprodAux acc l).length = l.length := by
  induction l generalizing acc with
  | nil => rfl
  | cons x xs ih => simp [cumprodAux, ih]

lemma cumprodAux_replicate_getD (s : ℝ) (n : ℕ) :
    ∀ (acc : ℝ) (i : ℕ), i < n →
      (cumprodAux acc (List.replicate n s)).getD i 0 = acc * s ^ (i + 1) := by
  induction n with
  | zero => intro acc i h; omega
  | succ n ih =>
    intro acc i h
    rw [List.replicate_succ, cumprodAux]
    cases i with
    | zero => simp [pow_one]
    | succ i =>
      rw [List.getD_cons_succ, ih (acc * s) i (by omega)]
      ring

lemma scaledTheta_getD (l : List ℂ) (θ : List ℝ) (i : ℕ) (h : i < θ.length) :
    (scaledTheta l θ).getD i 0 = (modScaleOf l) ^ (i + 1) * θ.getD i 0 := by
  have hlen : i < (List.zipWith (fun t c => t * c) θ
      (cumprod (List.replicate θ.length (modScaleOf l)))).length := by
    rw [List.length_zipWith, cumprod, length_cumprodAux, List.length_replicate]
    exact lt_min h h
  rw [scaledTheta, List.getD_eq_getElem _ _ hlen, List.getElem_zipWith]
  have h2 : i < (cumprod (List.replicate θ.length (modScaleOf l))).length := by
    rw [cumprod, length_cumprodAux, List.length_replicate]; exact h
  rw [← List.getD_eq_getElem _ 0 h, ← List.getD_eq_getElem _ 0 h2, cumprod,
    cumprodAux_replicate_getD _ _ _ i h, one_mul, mul_comm]

lemma map_getD_range {α : Type*} [Inhabited α] (l : List α) :
    (List.range l.length).map (fun i => l.getD i default) = l := by
  apply List.ext_getElem
  · rw [List.length_map, List.length_range]
  · intro n h1 h2
    rw [List.getElem_map, List.getElem_range,
      List.getD_eq_getElem _ _ (by simpa using h2)]

lemma polesListOf_map_pos (var fsamp : ℝ) (stable : Bool) (poles : List ℂ) :
    (polesListOf var fsamp stable poles).map Pole.pos = poles := by
  rw [polesListOf, List.map_map]
  exact map_getD_range poles

/-! ## Claim C3 -/

/-- Claim C3: the stabilization step computes the single scalar
`s = min(0.99 / max|pole|, 1)` (stated for nonzero maximum; in IEEE arithmetic
the zero-maximum case also yields `1` via `min(inf, 1)`), multiplies every
pole position by `s`, scales AR coefficient `i` (1-based) by `s^i`, and every
pole position in the returned result has absolute value at most `0.99`. -/
theorem C3_stabilization (hasTheta0 : Bool) (theta wn : List ℝ) (k : ℝ)
    (polesRaw : List ℂ) (aggregate : Bool) (hp : polesRaw ≠ []) :
    (0 < maxAbsOf (sortPoles polesRaw) →
      modScaleOf (sortPoles polesRaw) =
        min (0.99 / maxAbsOf (sortPoles polesRaw)) 1) ∧
    (computePsd hasTheta0 theta wn k polesRaw aggregate).map
        (fun r => r.poles.map Pole.pos) =
      Except.ok ((sortPoles polesRaw).map
        (fun p => ((modScaleOf (sortPoles polesRaw) : ℝ) : ℂ) * p)) ∧
    (∀ i, i < (thetapOf hasTheta0 theta).length →
      (scaledTheta (sortPoles polesRaw) (thetapOf hasTheta0 theta)).getD i 0 =
        (modScaleOf (sortPoles polesRaw)) ^ (i + 1) *
          (thetapOf hasTheta0 theta).getD i 0) ∧
    (∀ q ∈ scaledPoles (sortPoles polesRaw), Complex.abs q ≤ 0.99) := by
  refine ⟨fun h => modScaleOf_eq_min h, ?_, ?_, ?_⟩
  · rw [computePsd_ok _ _ _ _ _ _ hp]
    simp only [Except.map, analysisOf]
    rw [polesListOf_map_pos, scaledPoles]
  · intro i h
    exact scaledTheta_getD _ _ i h
  · intro q hq
    rw [scaledPoles] at hq
    rcases List.mem_map.mp hq with ⟨p, hpmem, rfl⟩
    exact abs_scaled_le hpmem

/-- Witness for C3 at `polesRaw = [0.5]`. -/
theorem C3_stabilization_witness :
    ([((0.5 : ℝ) : ℂ)] : List ℂ) ≠ [] ∧
    ((0 < maxAbsOf (sortPoles [((0.5 : ℝ) : ℂ)]) →
      modScaleOf (sortPoles [((0.5 : ℝ) : ℂ)]) =
        min (0.99 / maxAbsOf (sortPoles [((0.5 : ℝ) : ℂ)])) 1) ∧
    (computePsd false [0.5] [1] 1 [((0.5 : ℝ) : ℂ)] true).map
        (fun r => r.poles.map Pole.pos) =
      Except.ok ((sortPoles [((0.5 : ℝ) : ℂ)]).map
        (fun p => ((modScaleOf (sortPoles [((0.5 : ℝ) : ℂ)]) : ℝ) : ℂ) * p)) ∧
    (∀ i, i < (thetapOf false [0.5]).length →
      (scaledTheta (sortPoles [((0.5 : ℝ) : ℂ)]) (thetapOf false [0.5])).getD i 0 =
        (modScaleOf (sortPoles [((0.5 : ℝ) : ℂ)])) ^ (i + 1) *
          (thetapOf false [0.5]).getD i 0) ∧
    (∀ q ∈ scaledPoles (sortPoles [((0.5 : ℝ) : ℂ)]), Complex.abs q ≤ 0.99)) :=
  ⟨by simp, C3_stabilization false [0.5] [1] 1 [((0.5 : ℝ) : ℂ)] true (by simp)⟩

/-! ## Claim C10 -/

lemma cumprodAux_replicate_one (n : ℕ) :
    ∀ acc : ℝ, cumprodAux acc (List.replicate n 1) = List.replicate n acc := by
  induction n with
  | zero => intro acc; rfl
  | succ n ih =>
    intro acc
    rw [List.replicate_succ, cumprodAux, mul_one, ih acc, List.replicate_succ]

lemma zipWith_mul_replicate_one (θ : List ℝ) :
    List.zipWith (fun t c => t * c) θ (List.replicate θ.length 1) = θ := by
  induction θ with
  | nil => rfl
  | cons x xs ih => simp only [List.length_cons, List.replicate_succ,
      List.zipWith_cons_cons, mul_one, ih]

lemma modScaleOf_eq_one {l : List ℂ} (h : ∀ p ∈ l, Complex.abs p ≤ 0.99) :
    modScaleOf l = 1 := by
  have hle : maxAbsOf l ≤ 0.99 := maxAbsOf_le (by norm_num) h
  rw [modScaleOf]
  split
  · rfl
  · next hge =>
    have : maxAbsOf l = 0.99 := le_antisymm hle (not_lt.mp hge)
    rw [this]
    norm_num

/-- Claim C10: when every root already has magnitude at most `0.99`, the
stabilization is an exact (value-level) no-op: the decay factor is `1`, and
the pole positions and AR coefficients used by the downstream steps — and the
pole positions in the returned result — are exactly the unscaled values. -/
theorem C10_stabilization_noop (hasTheta0 : Bool) (theta wn : List ℝ) (k : ℝ)
    (polesRaw : List ℂ) (aggregate : Bool) (hp : polesRaw ≠ [])
    (hb : ∀ p ∈ polesRaw, Complex.abs p ≤ 0.99) :
    modScaleOf (sortPoles polesRaw) = 1 ∧
    scaledPoles (sortPoles polesRaw) = sortPoles polesRaw ∧
    scaledTheta (sortPoles polesRaw) (thetapOf hasTheta0 theta) =
      thetapOf hasTheta0 theta ∧
    (computePsd hasTheta0 theta wn k polesRaw aggregate).map
        (fun r => r.poles.map Pole.pos) = Except.ok (sortPoles polesRaw) := by
  have hb' : ∀ p ∈ sortPoles polesRaw, Complex.abs p ≤ 0.99 := fun p hp' =>
    hb p ((sortPoles_perm polesRaw).mem_iff.mp hp')
  have h1 : modScaleOf (sortPoles polesRaw) = 1 := modScaleOf_eq_one hb'
  have h2 : scaledPoles (sortPoles polesRaw) = sortPoles polesRaw := by
    rw [scaledPoles, h1]
    simp
  refine ⟨h1, h2, ?_, ?_⟩
  · rw [scaledTheta, h1, cumprod, cumprodAux_replicate_one,
      zipWith_mul_replicate_one]
  · rw [computePsd_ok _ _ _ _ _ _ hp]
    simp only [Except.map, analysisOf]
    rw [polesListOf_map_pos, h2]

/-- Witness for C10 at `polesRaw = [0.5]` (already stable). -/
theorem C10_stabilization_noop_witness :
    ([((0.5 : ℝ) : ℂ)] : List ℂ) ≠ [] ∧
    (∀ p ∈ ([((0.5 : ℝ) : ℂ)] : List ℂ), Complex.abs p ≤ 0.99) ∧
    (modScaleOf (sortPoles [((0.5 : ℝ) : ℂ)]) = 1 ∧
    scaledPoles (sortPoles [((0.5 : ℝ) : ℂ)]) = sortPoles [((0.5 : ℝ) : ℂ)] ∧
    scaledTheta (sortPoles [((0.5 : ℝ) : ℂ)]) (thetapOf false [0.5]) =
      thetapOf false [0.5] ∧
    (computePsd false [0.5] [1] 1 [((0.5 : ℝ) : ℂ)] true).map
        (fun r => r.poles.map Pole.pos) =
      Except.ok (sortPoles [((0.5 : ℝ) : ℂ)])) :=
  ⟨by simp, by
      intro p hp
      rw [List.mem_singleton.mp hp, Complex.abs_ofReal,
        abs_of_nonneg (by norm_num : (0:ℝ) ≤ 0.5)]
      norm_num,
    C10_stabilization_noop false [0.5] [1] 1 [((0.5 : ℝ) : ℂ)] true (by simp)
      (by
        intro p hp
        rw [List.mem_singleton.mp hp, Complex.abs_ofReal,
          abs_of_nonneg (by norm_num : (0:ℝ) ≤ 0.5)]
        norm_num)⟩

/-! ## Claim C8: the frequency grid -/

lemma length_freqsOf (fsamp : ℝ) : (freqsOf fsamp).length = 2048 := by
  rw [freqsOf, List.length_map, length_fsGrid]

lemma freqsOf_getD (fsamp : ℝ) (i : ℕ) (h : i < 2048) :
    (freqsOf fsamp).getD i 0 = (-0.5 + (i : ℝ) / 2047) * fsamp := by
  rw [freqsOf, getD_map _ _ i (by rw [length_fsGrid]; exact h) 0,
    fsGrid_getD i h]

/-- Counterexample to claim C8: the claim says the right endpoint
`+0.5 * sampling_rate` is excluded from the returned frequency grid, but the
grid is built with `np.linspace(-0.5, 0.5, 2048)`, which is
endpoint-inclusive: at the concrete input `wn = [1]` (sampling rate `1`) the
last grid entry (index 2047) is exactly `0.5 * fsamp`. -/
theorem C8_endpoint_included_cex :
    (computePsd false [0.5] [1] 1 [((0.5 : ℝ) : ℂ)] true).map
        (fun r => r.frequencies.getD 2047 0) =
      Except.ok (0.5 * fsampOf [1]) := by
  rw [computePsd_ok _ _ _ _ _ _ (by simp)]
  simp only [Except.map, analysisOf]
  rw [freqsOf_getD _ 2047 (by norm_num)]
  norm_num

/-- Claim C8 as amended: the returned frequency array is
`np.linspace(-0.5, 0.5, 2048) * fsamp`: 2048 linearly spaced entries with
entry `i` equal to `(-0.5 + i/2047) * fsamp`; both band edges are included
(`-0.5 * fsamp` at index 0 and `+0.5 * fsamp` at index 2047), not excluded. -/
theorem C8_frequency_grid (hasTheta0 : Bool) (theta wn : List ℝ) (k : ℝ)
    (polesRaw : List ℂ) (aggregate : Bool) (hp : polesRaw ≠ []) :
    (computePsd hasTheta0 theta wn k polesRaw aggregate).map
        (fun r => r.frequencies) = Except.ok (freqsOf (fsampOf wn)) ∧
    (freqsOf (fsampOf wn)).length = 2048 ∧
    (∀ i, i < 2048 →
      (freqsOf (fsampOf wn)).getD i 0 = (-0.5 + (i : ℝ) / 2047) * fsampOf wn) := by
  refine ⟨?_, length_freqsOf _, fun i h => freqsOf_getD _ i h⟩
  rw [computePsd_ok _ _ _ _ _ _ hp]
  simp only [Except.map, analysisOf]

/-- Witness for the amended C8 at `wn = [2]`, `polesRaw = [0.5]`. -/
theorem C8_frequency_grid_witness :
    ([((0.5 : ℝ) : ℂ)] : List ℂ) ≠ [] ∧
    ((computePsd false [0.5] [2] 1 [((0.5 : ℝ) : ℂ)] true).map
        (fun r => r.frequencies) = Except.ok (freqsOf (fsampOf [2])) ∧
    (freqsOf (fsampOf [2])).length = 2048 ∧
    (∀ i, i < 2048 →
      (freqsOf (fsampOf [2])).getD i 0 = (-0.5 + (i : ℝ) / 2047) * fsampOf [2])) :=
  ⟨by simp, C8_frequency_grid false [0.5] [2] 1 [((0.5 : ℝ) : ℂ)] true (by simp)⟩

/-! ## Claim C9: power array sign -/

lemma length_powersOf (thetapScaled : List ℝ) (var fsamp : ℝ) :
    (powersOf thetapScaled var fsamp).length = 2048 := by
  rw [powersOf, List.length_map, length_zGrid]

lemma sortPoles_singleton (x : ℂ) : sortPoles [x] = [x] := rfl

lemma scaledTheta_of_modScale_one {l : List ℂ} (h : modScaleOf l = 1)
    (θ : List ℝ) : scaledTheta l θ = θ := by
  rw [scaledTheta, h, cumprod, cumprodAux_replicate_one,
    zipWith_mul_replicate_one]

/-- Counterexample to claim C9: the claim asserts non-negative powers for
*any* nonzero `k`; at `k = -1` (with `theta = [0]`, `wn = [1]`) the variance
`1e6 * mean³ / k` is negative and every power entry is negative — entry 0 is
exactly `-1e6`. -/
theorem C9_negative_power_cex :
    (computePsd false [0] [1] (-1) [(0 : ℂ)] true).map
        (fun r => r.powers.getD 0 0) = Except.ok (-1000000) ∧
    (-1000000 : ℝ) < 0 := by
  constructor
  · rw [computePsd_ok _ _ _ _ _ _ (by simp)]
    simp only [Except.map, analysisOf]
    have hms : modScaleOf (sortPoles [(0 : ℂ)]) = 1 := by
      rw [sortPoles_singleton]
      apply modScaleOf_eq_one
      intro p hp
      rw [List.mem_singleton.mp hp, map_zero]
      norm_num
    have hθ : thetapOf false [0] = [0] := rfl
    rw [hθ, scaledTheta_of_modScale_one hms, powersOf_getD _ _ _ 0 (by norm_num)]
    have hpoly : ∀ w : ℂ,
        polyval ((1 : ℂ) :: ([0] : List ℝ).map (fun t : ℝ => -(t : ℂ))) w = w := by
      intro w
      simp [polyval]
    rw [hpoly, zGrid_getD 0 (by norm_num), abs_conj_zOf, varOf, fsampOf, mean]
    norm_num
  · norm_num

/-- Claim C9 as amended: all returned power entries are real by construction
and non-negative whenever the input satisfies the documented input contract
(`wn` non-empty with positive intervals, `k > 0`); for `k < 0` they can be
negative (see the counterexample). -/
theorem C9_powers_nonneg (hasTheta0 : Bool) (theta wn : List ℝ) (k : ℝ)
    (polesRaw : List ℂ) (aggregate : Bool)
    (hwn : wn ≠ []) (hpos : ∀ x ∈ wn, 0 < x) (hk : 0 < k) (hp : polesRaw ≠ []) :
    (computePsd hasTheta0 theta wn k polesRaw aggregate).map
        (fun r => r.powers) =
      Except.ok (powersOf (scaledTheta (sortPoles polesRaw)
        (thetapOf hasTheta0 theta)) (varOf wn k) (fsampOf wn)) ∧
    ∀ x ∈ powersOf (scaledTheta (sortPoles polesRaw) (thetapOf hasTheta0 theta))
        (varOf wn k) (fsampOf wn), 0 ≤ x := by
  constructor
  · rw [computePsd_ok _ _ _ _ _ _ hp]
    simp only [Except.map, analysisOf]
  · intro x hx
    rcases List.mem_map.mp hx with ⟨zz, _, rfl⟩
    have hmean : 0 < mean wn := by
      rw [mean]
      apply div_pos (List.sum_pos wn hpos hwn)
      have : wn.length ≠ 0 := fun h0 => hwn (List.length_eq_zero.mp h0)
      positivity
    have hvar : 0 ≤ varOf wn k := by
      rw [varOf]
      positivity
    have hfs : 0 ≤ fsampOf wn := by
      rw [fsampOf]
      positivity
    exact div_nonneg (div_nonneg hvar hfs) (pow_nonneg (Complex.abs.nonneg _) 2)

/-- Witness for the amended C9 at `theta = [0.5]`, `wn = [1]`, `k = 1`. -/
theorem C9_powers_nonneg_witness :
    ([1] : List ℝ) ≠ [] ∧ (∀ x ∈ ([1] : List ℝ), 0 < x) ∧ (0 : ℝ) < 1 ∧
    ([((0.5 : ℝ) : ℂ)] : List ℂ) ≠ [] ∧
    ((computePsd false [0.5] [1] 1 [((0.5 : ℝ) : ℂ)] true).map
        (fun r => r.powers) =
      Except.ok (powersOf (scaledTheta (sortPoles [((0.5 : ℝ) : ℂ)])
        (thetapOf false [0.5])) (varOf [1] 1) (fsampOf [1])) ∧
    ∀ x ∈ powersOf (scaledTheta (sortPoles [((0.5 : ℝ) : ℂ)])
        (thetapOf false [0.5])) (varOf [1] 1) (fsampOf [1]), 0 ≤ x) :=
  ⟨by simp, by intro x hx; rw [List.mem_singleton.mp hx]; norm_num, by norm_num,
    by simp,
    C9_powers_nonneg false [0.5] [1] 1 [((0.5 : ℝ) : ℂ)] true (by simp)
      (by intro x hx; rw [List.mem_singleton.mp hx]; norm_num) (by norm_num)
      (by simp)⟩

/-! ## Claim C7: `k ≤ 0` -/

/-- Counterexample to claim C7: at `k = -1 ≤ 0` no error of any kind is
raised — `psd()` returns a full 2048-entry result (with a negative variance
silently propagated, cf. the C9 counterexample); in particular it does not
surface an `InvalidSampleCountError`. -/
theorem C7_no_error_nonpositive_k_cex :
    (-1 : ℝ) ≤ 0 ∧
    (computePsd false [0] [1] (-1) [(0 : ℂ)] true).map
        (fun r => r.powers.length) = Except.ok 2048 ∧
    computePsd false [0] [1] (-1) [(0 : ℂ)] true ≠
      Except.error PyErr.invalidSampleCountError := by
  refine ⟨by norm_num, ?_, ?_⟩
  · rw [computePsd_ok _ _ _ _ _ _ (by simp)]
    simp only [Except.map, analysisOf]
    rw [length_powersOf]
  · rw [computePsd_ok _ _ _ _ _ _ (by simp)]
    exact fun h => Except.noConfusion h

/-- Claim C7 as amended: there is no guard on `k` at all — for any `k ≤ 0`
the variance division is performed silently (IEEE: `k = 0` gives an infinite
variance with only a runtime warning, `k < 0` a negative variance) and
`psd()` returns a normal 2048-entry result instead of raising an
`InvalidSampleCountError`. -/
theorem C7_no_error_nonpositive_k (hasTheta0 : Bool) (theta wn : List ℝ)
    (k : ℝ) (polesRaw : List ℂ) (aggregate : Bool)
    (_hk : k ≤ 0) (hp : polesRaw ≠ []) :
    (computePsd hasTheta0 theta wn k polesRaw aggregate).map
        (fun r => r.powers.length) = Except.ok 2048 := by
  rw [computePsd_ok _ _ _ _ _ _ hp]
  simp only [Except.map, analysisOf]
  rw [length_powersOf]

/-- Witness for the amended C7 at `k = -2`. -/
theorem C7_no_error_nonpositive_k_witness :
    (-2 : ℝ) ≤ 0 ∧ ([((0.5 : ℝ) : ℂ)] : List ℂ) ≠ [] ∧
    (computePsd false [0.5] [1] (-2) [((0.5 : ℝ) : ℂ)] true).map
        (fun r => r.powers.length) = Except.ok 2048 :=
  ⟨by norm_num, by simp,
    C7_no_error_nonpositive_k false [0.5] [1] (-2) [((0.5 : ℝ) : ℂ)] true
      (by norm_num) (by simp)⟩

/-! ## Claim C5: degenerate model -/

/-- Counterexample to claim C5: on the degenerate input (empty coefficient
list, hence no roots: `np.roots([1]) = []`) the pipeline does fail without a
partial result, but the exception is the generic `ValueError` raised by
Python's `max()` on an empty sequence — not a dedicated
`DegenerateModelError` (no such class exists in the code). -/
theorem C5_degenerate_valueerror_cex :
    computePsd false [] [1] 1 [] true = Except.error PyErr.valueError ∧
    PyErr.valueError ≠ PyErr.degenerateModelError :=
  ⟨rfl, by decide⟩

/-- Claim C5 as amended: an input whose AR coefficient sequence is empty
after intercept removal (degree-0 polynomial, so `np.roots` returns no roots
and `polesRaw = []`) makes `psd()` fail with the unhandled `ValueError` from
`max()` of an empty sequence; no partial result is returned, but the error is
not a dedicated `DegenerateModelError`. -/
theorem C5_degenerate_raises (hasTheta0 : Bool) (theta wn : List ℝ) (k : ℝ)
    (aggregate : Bool) (_hθ : thetapOf hasTheta0 theta = []) :
    computePsd hasTheta0 theta wn k [] aggregate =
      Except.error PyErr.valueError := rfl

/-- Witness for the amended C5 at `theta = []`. -/
theorem C5_degenerate_raises_witness :
    thetapOf false [] = [] ∧
    computePsd false [] [2] 3 [] false = Except.error PyErr.valueError :=
  ⟨rfl, C5_degenerate_raises false [] [2] 3 false rfl⟩

/-! ## Aggregation counting -/

lemma length_compsOf (var fsamp : ℝ) (stable : Bool) (poles : List ℂ) :
    (compsOf var fsamp stable poles).length = poles.length := by
  rw [compsOf, List.length_map, List.length_range]

lemma length_polesListOf (var fsamp : ℝ) (stable : Bool) (poles : List ℂ) :
    (polesListOf var fsamp stable poles).length = poles.length := by
  rw [polesListOf, List.length_map, List.length_range]

lemma length_scaledPoles (l : List ℂ) : (scaledPoles l).length = l.length := by
  rw [scaledPoles, List.length_map]

lemma adjMerges_le : ∀ (x : ℂ) (xs : List ℂ), adjMerges (x :: xs) ≤ xs.length := by
  intro x xs
  induction xs generalizing x with
  | nil => exact le_refl 0
  | cons y ys ih =>
    rw [adjMerges]
    have := ih y
    split <;> simp <;> omega

lemma aggGo_length :
    ∀ (ps : List ℂ) (cs : List (List ℂ)) (prev : ℂ) (cur : List ℂ),
      cs.length = ps.length →
      (aggGo prev cur ps cs).length = 1 + ps.length - adjMerges (prev :: ps) := by
  intro ps
  induction ps with
  | nil =>
    intro cs prev cur _
    simp [aggGo, adjMerges]
  | cons p ps ih =>
    intro cs prev cur hlen
    cases cs with
    | nil => simp at hlen
    | cons c cs =>
      have hlen' : cs.length = ps.length := by simpa using hlen
      rw [aggGo, adjMerges]
      have hle := adjMerges_le p ps
      simp only [List.length_cons]
      split
      · rw [ih cs p (addComps cur c) hlen']
        omega
      · rw [List.length_cons, ih cs p c hlen']
        omega

lemma length_aggregateComps (poles : List ℂ) (comps : List (List ℂ))
    (h : comps.length = poles.length) (hne : poles ≠ []) :
    (aggregateComps poles comps).length = poles.length - adjMerges poles := by
  cases poles with
  | nil => exact absurd rfl hne
  | cons p ps =>
    cases comps with
    | nil => simp at h
    | cons c cs =>
      have h' : cs.length = ps.length := by simpa using h
      rw [aggregateComps, aggGo_length ps cs p c h', List.length_cons]
      have := adjMerges_le p ps
      omega

lemma adjMerges_nonnil_le {l : List ℂ} (h : l ≠ []) :
    adjMerges l ≤ l.length - 1 := by
  cases l with
  | nil => exact absurd rfl h
  | cons x xs => simpa using adjMerges_le x xs

/-- The two-element sort evaluates to the input order when the first pole's
absolute angle is not larger. -/
lemma sortPoles_pair {a b : ℂ} (h : angleLe a b) : sortPoles [a, b] = [a, b] := by
  show List.orderedInsert angleLe a [b] = [a, b]
  simp only [List.orderedInsert, if_pos h]

lemma scaledPoles_of_modScale_one {l : List ℂ} (h : modScaleOf l = 1) :
    scaledPoles l = l := by
  rw [scaledPoles, h]
  simp

lemma isclose_conj_self_ofReal (x : ℝ) (hx : 0 ≤ x) :
    isclose ((x : ℝ) : ℂ) ((starRingEnd ℂ) ((x : ℝ) : ℂ)) := by
  rw [isclose, Complex.conj_ofReal, sub_self, map_zero, Complex.abs_ofReal,
    abs_of_nonneg hx]
  positivity

lemma pair_rootsProd (a b : ℂ) :
    rootsProd [a, b] = Polynomial.X ^ 2 -
      (Polynomial.C (a + b) * Polynomial.X + Polynomial.C (-(a * b))) := by
  rw [rootsProd]
  simp only [List.map_cons, List.map_nil, List.prod_cons, List.prod_nil,
    mul_one, map_add, map_neg, map_mul]
  ring

/-! ## Claim C4 -/

/-- Counterexample to claim C4: with `theta = [1, -0.25]` (characteristic
polynomial `(z - 0.5)²`, a coincident pair of *real* roots `[0.5, 0.5]` —
shown by the first conjunct — hence no true complex-conjugate pair, second
conjunct), the aggregation loop still merges the two contribution arrays
because `np.isclose(0.5, conj(0.5))` holds: with `aggregate = true` the
returned result has 1 contribution array for 2 poles, where the claim
requires them to be equal in number ("equal otherwise"). -/
theorem C4_aggregation_counts_cex :
    rootsProd [((0.5 : ℝ) : ℂ), ((0.5 : ℝ) : ℂ)] = arPolyC [1, -0.25] ∧
    ¬ hasTrueConjPair (scaledPoles (sortPoles [((0.5 : ℝ) : ℂ), ((0.5 : ℝ) : ℂ)])) ∧
    (computePsd false [1, -0.25] [1] 1 [((0.5 : ℝ) : ℂ), ((0.5 : ℝ) : ℂ)] true).map
        (fun r => (r.comps.length, r.poles.length)) = Except.ok (1, 2) := by
  have hsort : sortPoles [((0.5 : ℝ) : ℂ), ((0.5 : ℝ) : ℂ)] =
      [((0.5 : ℝ) : ℂ), ((0.5 : ℝ) : ℂ)] := sortPoles_pair (le_refl _)
  have hms : modScaleOf [((0.5 : ℝ) : ℂ), ((0.5 : ℝ) : ℂ)] = 1 := by
    apply modScaleOf_eq_one
    intro p hp
    rcases List.mem_cons.mp hp with h1 | h2
    · rw [h1, Complex.abs_ofReal, abs_of_nonneg (by norm_num : (0:ℝ) ≤ 0.5)]
      norm_num
    · rw [List.mem_singleton.mp h2, Complex.abs_ofReal,
        abs_of_nonneg (by norm_num : (0:ℝ) ≤ 0.5)]
      norm_num
  have hsc : scaledPoles (sortPoles [((0.5 : ℝ) : ℂ), ((0.5 : ℝ) : ℂ)]) =
      [((0.5 : ℝ) : ℂ), ((0.5 : ℝ) : ℂ)] := by
    rw [hsort, scaledPoles_of_modScale_one hms]
  have hclose := isclose_conj_self_ofReal 0.5 (by norm_num)
  refine ⟨?_, ?_, ?_⟩
  · rw [pair_rootsProd, arPolyC]
    have hl : ([1, -0.25] : List ℝ).length = 2 := rfl
    rw [hl, Finset.sum_range_succ, Finset.sum_range_succ, Finset.sum_range_zero]
    simp only [List.getD_cons_zero, List.getD_cons_succ, zero_add]
    have ha : (2 : ℕ) - 1 - 0 = 1 := rfl
    have hb : (2 : ℕ) - 1 - 1 = 0 := rfl
    rw [ha, hb, pow_one, pow_zero, mul_one]
    have e1 : ((0.5 : ℝ) : ℂ) + ((0.5 : ℝ) : ℂ) = ((1 : ℝ) : ℂ) := by
      push_cast
      norm_num
    have e2 : -(((0.5 : ℝ) : ℂ) * ((0.5 : ℝ) : ℂ)) = ((-0.25 : ℝ) : ℂ) := by
      push_cast
      norm_num
    rw [e1, e2]
  · rw [hsc]
    rintro ⟨i, j, hi, hj, hij, hconj, him⟩
    apply him
    have hi2 : i < 2 := by simpa using hi
    interval_cases i <;>
      simp [List.getD_cons_zero, List.getD_cons_succ, Complex.ofReal_im]
  · rw [computePsd_ok _ _ _ _ _ _ (by simp), Except.map]
    simp only [analysisOf, cond]
    rw [hsc, length_polesListOf]
    have hagg : (aggregateComps [((0.5 : ℝ) : ℂ), ((0.5 : ℝ) : ℂ)]
        (compsOf (varOf [1] 1) (fsampOf [1])
          (stableFlag (sortPoles [((0.5 : ℝ) : ℂ), ((0.5 : ℝ) : ℂ)]))
          [((0.5 : ℝ) : ℂ), ((0.5 : ℝ) : ℂ)])).length = 1 := by
      rw [length_aggregateComps _ _ (length_compsOf _ _ _ _) (by simp)]
      rw [adjMerges, adjMerges, if_pos hclose]
      simp
    rw [hagg]
    simp

/-- Claim C4 as amended: with `aggregate = false` the contribution-array count
equals the pole count; with `aggregate = true` it equals the pole count minus
the number of adjacent poles that are `np.isclose` to the conjugate of their
predecessor, and is strictly smaller exactly when at least one such adjacent
merge happens.  A true complex-conjugate pair adjacent in the sorted order is
merged, but so is a numerically coincident pair of *real* poles (see the
counterexample), so "strictly fewer iff a true conjugate pair exists" does
not hold as stated. -/
theorem C4_aggregation_counts (hasTheta0 : Bool) (theta wn : List ℝ) (k : ℝ)
    (polesRaw : List ℂ) (hp : polesRaw ≠ []) :
    (computePsd hasTheta0 theta wn k polesRaw false).map
        (fun r => (r.comps.length, r.poles.length)) =
      Except.ok (polesRaw.length, polesRaw.length) ∧
    (computePsd hasTheta0 theta wn k polesRaw true).map
        (fun r => r.comps.length) =
      Except.ok (polesRaw.length - adjMerges (scaledPoles (sortPoles polesRaw))) ∧
    (polesRaw.length - adjMerges (scaledPoles (sortPoles polesRaw)) <
        polesRaw.length ↔
      0 < adjMerges (scaledPoles (sortPoles polesRaw))) := by
  have hlen : (scaledPoles (sortPoles polesRaw)).length = polesRaw.length := by
    rw [length_scaledPoles, length_sortPoles]
  have hne : scaledPoles (sortPoles polesRaw) ≠ [] := by
    intro h0
    apply hp
    rw [h0] at hlen
    exact List.length_eq_zero.mp hlen.symm
  have hme : adjMerges (scaledPoles (sortPoles polesRaw)) ≤ polesRaw.length - 1 := by
    have := adjMerges_nonnil_le hne
    omega
  have hn1 : 1 ≤ polesRaw.length := by
    have : polesRaw.length ≠ 0 := fun h0 => hp (List.length_eq_zero.mp h0)
    omega
  refine ⟨?_, ?_, by omega⟩
  · rw [computePsd_ok _ _ _ _ _ _ hp, Except.map]
    simp only [analysisOf, cond]
    rw [length_polesListOf, length_compsOf, hlen]
  · rw [computePsd_ok _ _ _ _ _ _ hp, Except.map]
    simp only [analysisOf, cond]
    rw [length_aggregateComps _ _ (length_compsOf _ _ _ _) hne, hlen]

/-- Witness for the amended C4 at `polesRaw = [0.5]`. -/
theorem C4_aggregation_counts_witness :
    ([((0.5 : ℝ) : ℂ)] : List ℂ) ≠ [] ∧
    ((computePsd false [0.5] [1] 1 [((0.5 : ℝ) : ℂ)] false).map
        (fun r => (r.comps.length, r.poles.length)) = Except.ok (1, 1) ∧
    (computePsd false [0.5] [1] 1 [((0.5 : ℝ) : ℂ)] true).map
        (fun r => r.comps.length) =
      Except.ok (1 - adjMerges (scaledPoles (sortPoles [((0.5 : ℝ) : ℂ)]))) ∧
    (1 - adjMerges (scaledPoles (sortPoles [((0.5 : ℝ) : ℂ)])) < 1 ↔
      0 < adjMerges (scaledPoles (sortPoles [((0.5 : ℝ) : ℂ)])))) :=
  ⟨by simp, C4_aggregation_counts false [0.5] [1] 1 [((0.5 : ℝ) : ℂ)] (by simp)⟩

/-! ## Residue denominators -/

lemma getD_mem_eraseIdx {l : List ℂ} {i j : ℕ} (hij : i ≠ j)
    (hi : i < l.length) (hj : j < l.length) : l.getD j 0 ∈ l.eraseIdx i := by
  have hlen : (l.eraseIdx i).length = l.length - 1 := by
    rw [List.length_eraseIdx, if_pos hi]
  by_cases hlt : j < i
  · have hj' : j < (l.eraseIdx i).length := by omega
    have hval := List.getElem_eraseIdx l i j hj'
    rw [dif_pos hlt] at hval
    rw [List.getD_eq_getElem _ _ hj, ← hval]
    exact List.getElem_mem _
  · have hgt : i < j := by omega
    have hj' : j - 1 < (l.eraseIdx i).length := by omega
    have hval := List.getElem_eraseIdx l i (j - 1) hj'
    rw [dif_neg (by omega)] at hval
    have hj1 : j - 1 + 1 = j := by omega
    simp only [hj1] at hval
    rw [List.getD_eq_getElem _ _ hj, ← hval]
    exact List.getElem_mem _

/-- If two pole values coincide at distinct indices, the residue denominator
of either index is exactly zero, in both object-identity regimes. -/
lemma resDenom_eq_zero_of_dup {poles : List ℂ} (i j : ℕ) (hij : i ≠ j)
    (hi : i < poles.length) (hj : j < poles.length)
    (heq : poles.getD i 0 = poles.getD j 0) (stable : Bool) :
    resDenom stable poles i = 0 := by
  rw [resDenom]
  have hzero : (0 : ℂ) ∈ ((if stable then poles.eraseIdx i else poles).map
      (fun v => poles.getD i 0 - v)) := by
    apply List.mem_map.mpr
    refine ⟨poles.getD j 0, ?_, by rw [heq, sub_self]⟩
    cases stable with
    | false =>
      show poles.getD j 0 ∈ poles
      rw [List.getD_eq_getElem _ _ hj]
      exact List.getElem_mem _
    | true =>
      show poles.getD j 0 ∈ poles.eraseIdx i
      exact getD_mem_eraseIdx hij hi hj
  rw [List.prod_eq_zero hzero, mul_zero, zero_mul]

/-- In the `ndarray` regime (`stable = false`, i.e. stabilization engaged) the
self-difference `p_i - p_i = 0` is never filtered out, so **every** residue
denominator is exactly zero. -/
lemma resDenom_false_eq_zero {poles : List ℂ} {i : ℕ} (hi : i < poles.length) :
    resDenom false poles i = 0 := by
  rw [resDenom]
  have hzero : (0 : ℂ) ∈ ((if (false : Bool) then poles.eraseIdx i else poles).map
      (fun v => poles.getD i 0 - v)) := by
    apply List.mem_map.mpr
    refine ⟨poles.getD i 0, ?_, sub_self _⟩
    show poles.getD i 0 ∈ poles
    rw [List.getD_eq_getElem _ _ hi]
    exact List.getElem_mem _
  rw [List.prod_eq_zero hzero, mul_zero, zero_mul]

lemma length_residuesOf (stable : Bool) (poles : List ℂ) :
    (residuesOf stable poles).length = poles.length := by
  rw [residuesOf, List.length_map, List.length_range]

/-- The residual stored on the `i`-th returned pole is `1 / resDenom … i`. -/
lemma polesList_residual_getD (var fsamp : ℝ) (stable : Bool) (poles : List ℂ)
    (i : ℕ) (h : i < poles.length) :
    ((polesListOf var fsamp stable poles).map Pole.residual).getD i 0 =
      1 / resDenom stable poles i := by
  have hr : i < (List.range poles.length).length := by
    rw [List.length_range]; exact h
  rw [polesListOf, List.map_map, getD_map _ _ i hr 0,
    List.getD_eq_getElem _ _ hr, List.getElem_range]
  show (residuesOf stable poles).getD i 0 = 1 / resDenom stable poles i
  rw [residuesOf, getD_map _ _ i hr 0, List.getD_eq_getElem _ _ hr,
    List.getElem_range]

/-! ## Claim C6 -/

/-- Shared concrete evaluation: the double pole list `[0.5, 0.5]` is already
sorted and stabilization leaves it unchanged. -/
lemma scaledPoles_sort_halfhalf :
    scaledPoles (sortPoles [((0.5 : ℝ) : ℂ), ((0.5 : ℝ) : ℂ)]) =
      [((0.5 : ℝ) : ℂ), ((0.5 : ℝ) : ℂ)] := by
  have hsort : sortPoles [((0.5 : ℝ) : ℂ), ((0.5 : ℝ) : ℂ)] =
      [((0.5 : ℝ) : ℂ), ((0.5 : ℝ) : ℂ)] := sortPoles_pair (le_refl _)
  rw [hsort]
  apply scaledPoles_of_modScale_one
  apply modScaleOf_eq_one
  intro p hp
  rcases List.mem_cons.mp hp with h1 | h2
  · rw [h1, Complex.abs_ofReal, abs_of_nonneg (by norm_num : (0:ℝ) ≤ 0.5)]
    norm_num
  · rw [List.mem_singleton.mp h2, Complex.abs_ofReal,
      abs_of_nonneg (by norm_num : (0:ℝ) ≤ 0.5)]
    norm_num

/-- Counterexample to claim C6: at `theta = [1, -0.25]` the two poles are
numerically identical (`[0.5, 0.5]`), the residue denominator of pole 0 is
exactly zero (NumPy divides by zero and stores non-finite residues — modelled
by the stored residual being literally `1 / 0`), and `psd()` nevertheless
returns a full normal result: no `SingularPoleError` (or any error) is
raised. -/
theorem C6_singular_pole_no_guard_cex :
    (computePsd false [1, -0.25] [1] 1
        [((0.5 : ℝ) : ℂ), ((0.5 : ℝ) : ℂ)] true).map
        (fun r => r.powers.length) = Except.ok 2048 ∧
    computePsd false [1, -0.25] [1] 1 [((0.5 : ℝ) : ℂ), ((0.5 : ℝ) : ℂ)] true ≠
      Except.error PyErr.singularPoleError ∧
    resDenom (stableFlag (sortPoles [((0.5 : ℝ) : ℂ), ((0.5 : ℝ) : ℂ)]))
      (scaledPoles (sortPoles [((0.5 : ℝ) : ℂ), ((0.5 : ℝ) : ℂ)])) 0 = 0 ∧
    (computePsd false [1, -0.25] [1] 1
        [((0.5 : ℝ) : ℂ), ((0.5 : ℝ) : ℂ)] true).map
        (fun r => (r.poles.map Pole.residual).getD 0 0) =
      Except.ok (1 / (0 : ℂ)) := by
  have hzero : resDenom (stableFlag (sortPoles [((0.5 : ℝ) : ℂ), ((0.5 : ℝ) : ℂ)]))
      (scaledPoles (sortPoles [((0.5 : ℝ) : ℂ), ((0.5 : ℝ) : ℂ)])) 0 = 0 := by
    rw [scaledPoles_sort_halfhalf]
    exact resDenom_eq_zero_of_dup 0 1 (by norm_num) (by norm_num) (by norm_num)
      (by rfl) _
  refine ⟨?_, ?_, hzero, ?_⟩
  · rw [computePsd_ok _ _ _ _ _ _ (by simp), Except.map]
    simp only [analysisOf]
    rw [length_powersOf]
  · rw [computePsd_ok _ _ _ _ _ _ (by simp)]
    exact fun h => Except.noConfusion h
  · rw [computePsd_ok _ _ _ _ _ _ (by simp), Except.map]
    simp only [analysisOf]
    rw [polesList_residual_getD _ _ _ _ 0
        (by rw [scaledPoles_sort_halfhalf]; norm_num), hzero]

/-- Claim C6 as amended: the residue computation has no guard at all — spec §9
itself concedes the original silently divides.  Whenever two returned pole
values are numerically identical, the residue denominator is exactly zero,
NumPy's division produces non-finite values that propagate into the stored
residuals (modelled as `1 / 0`), and `psd()` still returns a normal result
rather than surfacing a `SingularPoleError`. -/
theorem C6_singular_pole_no_guard (hasTheta0 : Bool) (theta wn : List ℝ)
    (k : ℝ) (polesRaw : List ℂ) (aggregate : Bool) (i j : ℕ)
    (hp : polesRaw ≠ []) (hij : i ≠ j)
    (hi : i < (scaledPoles (sortPoles polesRaw)).length)
    (hj : j < (scaledPoles (sortPoles polesRaw)).length)
    (heq : (scaledPoles (sortPoles polesRaw)).getD i 0 =
      (scaledPoles (sortPoles polesRaw)).getD j 0) :
    (computePsd hasTheta0 theta wn k polesRaw aggregate).map
        (fun r => r.powers.length) = Except.ok 2048 ∧
    computePsd hasTheta0 theta wn k polesRaw aggregate ≠
      Except.error PyErr.singularPoleError ∧
    resDenom (stableFlag (sortPoles polesRaw))
      (scaledPoles (sortPoles polesRaw)) i = 0 ∧
    (computePsd hasTheta0 theta wn k polesRaw aggregate).map
        (fun r => (r.poles.map Pole.residual).getD i 0) =
      Except.ok (1 / resDenom (stableFlag (sortPoles polesRaw))
        (scaledPoles (sortPoles polesRaw)) i) := by
  refine ⟨?_, ?_, resDenom_eq_zero_of_dup i j hij hi hj heq _, ?_⟩
  · rw [computePsd_ok _ _ _ _ _ _ hp, Except.map]
    simp only [analysisOf]
    rw [length_powersOf]
  · rw [computePsd_ok _ _ _ _ _ _ hp]
    exact fun h => Except.noConfusion h
  · rw [computePsd_ok _ _ _ _ _ _ hp, Except.map]
    simp only [analysisOf]
    rw [polesList_residual_getD _ _ _ _ i hi]

/-- Witness for the amended C6 at the coincident pole list `[0.5, 0.5]`. -/
theorem C6_singular_pole_no_guard_witness :
    ([((0.5 : ℝ) : ℂ), ((0.5 : ℝ) : ℂ)] : List ℂ) ≠ [] ∧ (0 : ℕ) ≠ 1 ∧
    0 < (scaledPoles (sortPoles [((0.5 : ℝ) : ℂ), ((0.5 : ℝ) : ℂ)])).length ∧
    1 < (scaledPoles (sortPoles [((0.5 : ℝ) : ℂ), ((0.5 : ℝ) : ℂ)])).length ∧
    (scaledPoles (sortPoles [((0.5 : ℝ) : ℂ), ((0.5 : ℝ) : ℂ)])).getD 0 0 =
      (scaledPoles (sortPoles [((0.5 : ℝ) : ℂ), ((0.5 : ℝ) : ℂ)])).getD 1 0 ∧
    ((computePsd false [1, -0.25] [1] 1
        [((0.5 : ℝ) : ℂ), ((0.5 : ℝ) : ℂ)] false).map
        (fun r => r.powers.length) = Except.ok 2048 ∧
    computePsd false [1, -0.25] [1] 1
        [((0.5 : ℝ) : ℂ), ((0.5 : ℝ) : ℂ)] false ≠
      Except.error PyErr.singularPoleError ∧
    resDenom (stableFlag (sortPoles [((0.5 : ℝ) : ℂ), ((0.5 : ℝ) : ℂ)]))
      (scaledPoles (sortPoles [((0.5 : ℝ) : ℂ), ((0.5 : ℝ) : ℂ)])) 0 = 0 ∧
    (computePsd false [1, -0.25] [1] 1
        [((0.5 : ℝ) : ℂ), ((0.5 : ℝ) : ℂ)] false).map
        (fun r => (r.poles.map Pole.residual).getD 0 0) =
      Except.ok (1 / resDenom (stableFlag (sortPoles [((0.5 : ℝ) : ℂ), ((0.5 : ℝ) : ℂ)]))
        (scaledPoles (sortPoles [((0.5 : ℝ) : ℂ), ((0.5 : ℝ) : ℂ)])) 0)) :=
  ⟨by simp, by norm_num,
    by rw [scaledPoles_sort_halfhalf]; norm_num,
    by rw [scaledPoles_sort_halfhalf]; norm_num,
    by rw [scaledPoles_sort_halfhalf]; rfl,
    C6_singular_pole_no_guard false [1, -0.25] [1] 1
      [((0.5 : ℝ) : ℂ), ((0.5 : ℝ) : ℂ)] false 0 1 (by simp) (by norm_num)
      (by rw [scaledPoles_sort_halfhalf]; norm_num)
      (by rw [scaledPoles_sort_halfhalf]; norm_num)
      (by rw [scaledPoles_sort_halfhalf]; rfl)⟩

/-! ## Claim C2 -/

/-- Modelled from the spec: the residue-denominator formula of §4.5 exactly
as the claim states it — the first product ranges over the returned pole
values *excluding index i*, the second over all of them:
`p_i · Π_{j≠i}(p_i − p_j) · Π_j(1/p_i − conj(p_j))`. -/
noncomputable def specResidueDenom (poles : List ℂ) (i : ℕ) : ℂ :=
  (poles.getD i 0) *
    ((poles.eraseIdx i).map (fun v => poles.getD i 0 - v)).prod *
    ((poles.map (fun v => 1 / poles.getD i 0 - (starRingEnd ℂ) v)).prod)

/-- In the list regime (`stable = true`) the code computes exactly the spec's
formula; the two definitions coincide term for term. -/
lemma specResidueDenom_eq_resDenom_true (poles : List ℂ) (i : ℕ) :
    specResidueDenom poles i = resDenom true poles i := rfl

/-- Claim C2 is the spec's residue formula; the code computes it only while
`poles_values` is still a Python list (`mod_scale` the int `1`, i.e.
`max|root| < 0.99`).  On the failing input `theta = [0, 4]` (no intercept),
`wn = [1]`, `k = 1` the characteristic polynomial is `z² - 4` with
pairwise-distinct roots `[2, -2]` (first two conjuncts); stabilization engages
(`mod_scale = 0.495`, a NumPy float), `poles_values` becomes an `ndarray`,
the object-identity filter `val is not p` stops excluding the pole itself,
and the computed residue denominator of the returned pole `0.99` is exactly
`0` (fourth conjunct) — NumPy divides by zero and stores a non-finite
residual, modelled by the stored value `1 / 0` (last conjunct) — while the
formula the claim states has a well-defined nonzero denominator (fifth
conjunct).  So the residues stored on stabilized models are not the claimed
values: the identity-based exclusion is a slip. -/
theorem C2_residue_division_by_zero :
    rootsProd [((2 : ℝ) : ℂ), ((-2 : ℝ) : ℂ)] = arPolyC [0, 4] ∧
    ((2 : ℝ) : ℂ) ≠ ((-2 : ℝ) : ℂ) ∧
    scaledPoles (sortPoles [((2 : ℝ) : ℂ), ((-2 : ℝ) : ℂ)]) =
      [((0.99 : ℝ) : ℂ), ((-0.99 : ℝ) : ℂ)] ∧
    resDenom (stableFlag (sortPoles [((2 : ℝ) : ℂ), ((-2 : ℝ) : ℂ)]))
      (scaledPoles (sortPoles [((2 : ℝ) : ℂ), ((-2 : ℝ) : ℂ)])) 0 = 0 ∧
    specResidueDenom [((0.99 : ℝ) : ℂ), ((-0.99 : ℝ) : ℂ)] 0 ≠ 0 ∧
    (computePsd false [0, 4] [1] 1 [((2 : ℝ) : ℂ), ((-2 : ℝ) : ℂ)] true).map
        (fun r => (r.poles.map Pole.residual).getD 0 0) =
      Except.ok (1 / (0 : ℂ)) := by
  have hangle : angleLe ((2 : ℝ) : ℂ) ((-2 : ℝ) : ℂ) := by
    show |Complex.arg ((2 : ℝ) : ℂ)| ≤ |Complex.arg ((-2 : ℝ) : ℂ)|
    rw [Complex.arg_ofReal_of_nonneg (by norm_num : (0:ℝ) ≤ 2), abs_zero]
    exact abs_nonneg _
  have hsort : sortPoles [((2 : ℝ) : ℂ), ((-2 : ℝ) : ℂ)] =
      [((2 : ℝ) : ℂ), ((-2 : ℝ) : ℂ)] := sortPoles_pair hangle
  have hmax : maxAbsOf [((2 : ℝ) : ℂ), ((-2 : ℝ) : ℂ)] = 2 := by
    rw [maxAbsOf_cons, maxAbsOf_cons, maxAbsOf_nil, Complex.abs_ofReal,
      Complex.abs_ofReal, abs_of_nonneg (by norm_num : (0:ℝ) ≤ 2),
      abs_of_nonpos (by norm_num : (-2:ℝ) ≤ 0)]
    norm_num
  have hms : modScaleOf (sortPoles [((2 : ℝ) : ℂ), ((-2 : ℝ) : ℂ)]) = 0.495 := by
    rw [hsort, modScaleOf, hmax, if_neg (by norm_num)]
    norm_num
  have hsc : scaledPoles (sortPoles [((2 : ℝ) : ℂ), ((-2 : ℝ) : ℂ)]) =
      [((0.99 : ℝ) : ℂ), ((-0.99 : ℝ) : ℂ)] := by
    rw [scaledPoles, hms, hsort]
    simp only [List.map_cons, List.map_nil]
    rw [← Complex.ofReal_mul, ← Complex.ofReal_mul]
    norm_num
  have hflag : stableFlag (sortPoles [((2 : ℝ) : ℂ), ((-2 : ℝ) : ℂ)]) = false := by
    rw [stableFlag, hsort, hmax]
    exact decide_eq_false (by norm_num)
  have hzero : resDenom (stableFlag (sortPoles [((2 : ℝ) : ℂ), ((-2 : ℝ) : ℂ)]))
      (scaledPoles (sortPoles [((2 : ℝ) : ℂ), ((-2 : ℝ) : ℂ)])) 0 = 0 := by
    rw [hflag, hsc]
    exact resDenom_false_eq_zero (by norm_num)
  refine ⟨?_, by norm_num, hsc, hzero, ?_, ?_⟩
  · rw [pair_rootsProd, arPolyC]
    have hl : ([0, 4] : List ℝ).length = 2 := rfl
    rw [hl, Finset.sum_range_succ, Finset.sum_range_succ, Finset.sum_range_zero]
    simp only [List.getD_cons_zero, List.getD_cons_succ, zero_add]
    have ha : (2 : ℕ) - 1 - 0 = 1 := rfl
    have hb : (2 : ℕ) - 1 - 1 = 0 := rfl
    rw [ha, hb, pow_one, pow_zero, mul_one]
    have e1 : ((2 : ℝ) : ℂ) + ((-2 : ℝ) : ℂ) = ((0 : ℝ) : ℂ) := by
      push_cast
      norm_num
    have e2 : -(((2 : ℝ) : ℂ) * ((-2 : ℝ) : ℂ)) = ((4 : ℝ) : ℂ) := by
      push_cast
      norm_num
    rw [e1, e2]
  · rw [specResidueDenom]
    simp only [List.getD_cons_zero, List.eraseIdx_cons_zero, List.map_cons,
      List.map_nil, List.prod_cons, List.prod_nil, Complex.conj_ofReal, mul_one]
    norm_cast
    norm_num
  · rw [computePsd_ok _ _ _ _ _ _ (by simp), Except.map]
    simp only [analysisOf]
    rw [polesList_residual_getD _ _ _ _ 0 (by rw [hsc]; norm_num), hzero]

end Spectral
